import Mathlib

set_option linter.unusedVariables false

/-!
Shallow embedding of the wallaby result-logging store
(`wallaby/__init__.py`).  The SQLite `results` table is modelled as a
list of rows; the SQL fragments the code issues (`INSERT`,
`SELECT ... WHERE`, `LIKE`, `CREATE TABLE IF NOT EXISTS`) are modelled
by their documented SQLite semantics on that list.  Timestamps
(`time.time()` floats) are modelled as rationals: the code only ever
compares them.  JSON documents are modelled with integer numbers;
serialization follows Python's `json.dumps` with its default options.
-/

deriving instance DecidableEq for Except

namespace Wallaby

/-- JSON documents as handled by Python's `json` module, with numbers
restricted to integers (floating-point payload values are outside the
scope of this embedding).  `Wallaby.log` payloads are values of this
type. -/
inductive Json where
  | null : Json
  | bool : Bool → Json
  | num : Int → Json
  | str : String → Json
  | arr : List Json → Json
  | obj : List (String × Json) → Json

/-- Digit character of `n < 16` (lowercase, as Python prints hex):
`0`–`9` for values below ten, `a`–`f` above. -/
def hexDigit (n : Nat) : Char :=
  if n < 10 then Char.ofNat (48 + n) else Char.ofNat (87 + n)

/-- The four-hex-digit payload of a `\uXXXX` escape. -/
def hex4 (n : Nat) : List Char :=
  [hexDigit (n / 4096 % 16), hexDigit (n / 256 % 16), hexDigit (n / 16 % 16), hexDigit (n % 16)]

/-- `\uXXXX` escape of a code point, using a surrogate pair above
U+FFFF, exactly as `json.dumps` (default `ensure_ascii=True`) prints
it. -/
def uEscape (n : Nat) : List Char :=
  if n < 0x10000 then '\\' :: 'u' :: hex4 n
  else
    ('\\' :: 'u' :: hex4 (0xD800 + (n - 0x10000) / 0x400)) ++
      ('\\' :: 'u' :: hex4 (0xDC00 + (n - 0x10000) % 0x400))

/-- How `json.dumps` renders one character inside a string literal:
two-character escapes for the JSON short escapes, `\uXXXX` for other
control characters and (with the default `ensure_ascii=True`) for
everything outside printable ASCII, the character itself otherwise. -/
def escChar (c : Char) : List Char :=
  if c = '"' then ['\\', '"']
  else if c = '\\' then ['\\', '\\']
  else if c = '\n' then ['\\', 'n']
  else if c = '\r' then ['\\', 'r']
  else if c = '\t' then ['\\', 't']
  else if c = '\x08' then ['\\', 'b']
  else if c = '\x0c' then ['\\', 'f']
  else if c.toNat < 0x20 ∨ 0x7e < c.toNat then uEscape c.toNat
  else [c]

/-- Escaped body of a JSON string literal. -/
def escString (s : String) : List Char :=
  s.data.foldr (fun c acc => escChar c ++ acc) []

/-- Rendering of a JSON string literal, quotes included. -/
def dumpsStr (s : String) : String :=
  ⟨'"' :: (escString s ++ ['"'])⟩

/-- Decimal digits of `n`, most significant first; `fuel`-guarded so the
definition is structurally recursive (any `fuel > 0` with `n < 10^fuel`
gives the digits). -/
def natDigits : Nat → Nat → List Char
  | 0, _ => []
  | f + 1, n => if n < 10 then [hexDigit n] else natDigits f (n / 10) ++ [hexDigit (n % 10)]

/-- Decimal rendering of a natural number. -/
def natDec (n : Nat) : List Char := natDigits (n + 1) n

/-- Decimal rendering of an integer, as Python's `str` prints it. -/
def dumpsInt (i : Int) : String :=
  if i < 0 then ⟨'-' :: natDec i.natAbs⟩ else ⟨natDec i.natAbs⟩

mutual

/-- `json.dumps` with its default options (separators `", "` and
`": "`, `ensure_ascii=True`), restricted to integer numbers. -/
def dumps : Json → String
  | .null => "null"
  | .bool true => "true"
  | .bool false => "false"
  | .num i => dumpsInt i
  | .str s => dumpsStr s
  | .arr [] => "[]"
  | .arr (x :: xs) => "[" ++ dumpsArr x xs ++ "]"
  | .obj [] => "\x7b\x7d"
  | .obj (kv :: kvs) => "\x7b" ++ dumpsObj kv kvs ++ "\x7d"
termination_by j => sizeOf j
decreasing_by all_goals (simp_wf; try omega)

/-- Comma-joined rendering of a non-empty JSON array's members. -/
def dumpsArr : Json → List Json → String
  | x, [] => dumps x
  | x, y :: ys => dumps x ++ ", " ++ dumpsArr y ys
termination_by x xs => sizeOf x + sizeOf xs
decreasing_by all_goals (simp_wf; try omega)

/-- Comma-joined rendering of a non-empty JSON object's members. -/
def dumpsObj : String × Json → List (String × Json) → String
  | (k, v), [] => dumpsStr k ++ ": " ++ dumps v
  | (k, v), kv :: kvs => dumpsStr k ++ ": " ++ dumps v ++ ", " ++ dumpsObj kv kvs
termination_by kv kvs => sizeOf kv + sizeOf kvs
decreasing_by all_goals (simp_wf; try omega)

end

/-- One row of the `results` table (`id INTEGER PRIMARY KEY,
jobtext TEXT, tagscsv TEXT, date FLOAT, results JSON`). -/
structure Record where
  id : Nat
  jobtext : String
  tagscsv : String
  date : ℚ
  results : String
deriving DecidableEq

/-- The tag delimiter: `log` frames and joins tags with commas. -/
def DELIM : String := ","

/-- Python's `",".join(tags)`. -/
def joinComma : List String → String
  | [] => ""
  | [t] => t
  | t :: ts => t ++ "," ++ joinComma ts

/-- `"," + (",".join(tags) if tags else "") + ","` from `Wallaby.log`
(`tags` defaults to `None`; both `None` and the empty list are falsy). -/
def buildTagscsv (tags : Option (List String)) : String :=
  DELIM ++
    (match tags with
      | some ts => if ts.isEmpty then "" else joinComma ts
      | none => "") ++ DELIM

/-- `if isinstance(results, str): results = {"output": results}` from
`Wallaby.log`: plain strings are wrapped, anything else passes
through. -/
def wrapPayload : Json → Json
  | .str s => .obj [("output", .str s)]
  | j => j

/-- Largest `id` in the table (`0` when empty).  SQLite gives a row
inserted with a `NULL` `INTEGER PRIMARY KEY` the id one greater than
the largest id in use, and `1` on an empty table. -/
def maxId (db : List Record) : Nat :=
  db.foldr (fun r m => max r.id m) 0

/-- `jobtext = jobtext or " ".join(sys.argv[:])` from `Wallaby.log`:
the caller's text unless it is `None` or empty (falsy), else the
command line (made a parameter `argv` here). -/
def resolveJobtext (jobtext : Option String) (argv : String) : String :=
  match jobtext with
  | some s => if s.isEmpty then argv else s
  | none => argv

/-- The row `Wallaby.log` inserts: fresh id, resolved job text,
delimited tag string, current time, serialized (and, for plain
strings, wrapped) payload. -/
def mkRecord (db : List Record) (payload : Json) (tags : Option (List String))
    (jobtext : Option String) (argv : String) (now : ℚ) : Record :=
  { id := maxId db + 1
    jobtext := resolveJobtext jobtext argv
    tagscsv := buildTagscsv tags
    date := now
    results := dumps (wrapPayload payload) }

/-- `Wallaby.log`: builds the row, runs the `INSERT` (appending the
row), and returns `True`. -/
def log (db : List Record) (payload : Json) (tags : Option (List String))
    (jobtext : Option String) (argv : String) (now : ℚ) : List Record × Bool :=
  (db ++ [mkRecord db payload tags jobtext argv now], true)

/-- SQLite's `LIKE` operator on unpacked strings: `%` matches any
sequence, `_` matches any single character, and any other pattern
character compares ASCII-case-insensitively with the subject (SQLite
folds only `A`–`Z` by default, exactly what `Char.toLower` folds).
The pattern must cover the whole subject. -/
def likeMatch : List Char → List Char → Bool
  | [], s => s.isEmpty
  | p :: ps, s =>
    if p = '%' then s.tails.any fun t => likeMatch ps t
    else if p = '_' then
      match s with
      | [] => false
      | _ :: s' => likeMatch ps s'
    else
      match s with
      | [] => false
      | c :: s' => (p.toLower == c.toLower) && likeMatch ps s'

/-- The pattern `get_by_tag` interpolates a tag into:
`f"tagscsv LIKE '%,\x7bt\x7d,%'"`. -/
def tagPattern (t : String) : String := "%," ++ t ++ ",%"

/-- Whether a row satisfies `tagscsv LIKE '%,\x7bt\x7d,%'`. -/
def matchesTag (t : String) (r : Record) : Bool :=
  likeMatch (tagPattern t).data r.tagscsv.data

/-- The `Union[List[str], str]` tag argument of `get_by_tag`. -/
inductive TagArg where
  | str : String → TagArg
  | list : List String → TagArg

/-- Python truthiness of an optional tag argument: `None`, `""` and
`[]` are falsy. -/
def truthy : Option TagArg → Bool
  | none => false
  | some (.str s) => !s.isEmpty
  | some (.list ts) => !ts.isEmpty

/-- `if isinstance(taglist, str): taglist = [taglist]` from
`get_by_tag`. -/
def toTagList : Option TagArg → List String
  | none => []
  | some (.str s) => [s]
  | some (.list ts) => ts

/-- Faults of the query layer: `invalidQuery` models the `ValueError`
`get_by_tag` raises (the spec's `InvalidQueryFault`), `storage` models
an error surfaced by sqlite3 such as the `OperationalError` on
malformed SQL (the spec's `StorageFault`). -/
inductive Fault where
  | invalidQuery : Fault
  | storage : Fault
deriving DecidableEq

/-- Executes the `SELECT * FROM results WHERE \x7btag_clause\x7d` that
`get_by_tag` interpolates its tags into.  A tag containing a single
quote breaks out of the `'...'` SQL string literal and leaves the
statement malformed, which sqlite3 rejects (`Fault.storage`);
otherwise every tag becomes the predicate
`tagscsv LIKE '%,\x7bt\x7d,%'` and the clause is their `AND` / `OR`
combination, evaluated row by row in storage order. -/
def runTagClause (isAnd : Bool) (ts : List String) (db : List Record) :
    Except Fault (List Record) :=
  if ts.any (fun t => t.data.contains '\'') then .error .storage
  else
    .ok (db.filter fun r =>
      if isAnd then ts.all (fun t => matchesTag t r) else ts.any (fun t => matchesTag t r))

/-- `Wallaby.get_by_tag`: `AND` over `all_of` when it is truthy, else
`OR` over `any_of` when it is truthy, else the `ValueError` — so a
truthy `all_of` silently takes precedence when both are supplied. -/
def get_by_tag (all_of any_of : Option TagArg) (db : List Record) :
    Except Fault (List Record) :=
  if truthy all_of then runTagClause true (toTagList all_of) db
  else if truthy any_of then runTagClause false (toTagList any_of) db
  else .error .invalidQuery

/-- `Wallaby.get_results_since`: `SELECT * FROM results WHERE
date > (?)` — exactly the rows whose `date` exceeds `since`, in
storage order. -/
def get_results_since (since : ℚ) (db : List Record) : List Record :=
  db.filter fun r => since < r.date

/-- The column list `Wallaby.__init__` fixes for the `results`
table. -/
def wallabyColumns : List (String × String) :=
  [("jobtext", "TEXT"), ("tagscsv", "TEXT"), ("date", "FLOAT"), ("results", "JSON")]

/-- A provisioned `results` table: its schema and its rows. -/
structure Table where
  columns : List (String × String)
  rows : List Record
deriving DecidableEq

/-- `Wallaby._initialize`: `CREATE TABLE IF NOT EXISTS results (...)` —
creates the empty table when the location has none and is a no-op on
an existing table, whatever its schema or contents. -/
def ensureSchema : Option Table → Option Table
  | none => some ⟨wallabyColumns, []⟩
  | some t => some t

/-- The core operations, with the environment inputs each reads (the
current time, the `sys.argv` text) made explicit parameters. -/
inductive Op where
  | opLog : Json → Option (List String) → Option String → String → ℚ → Op
  | opGetByTag : Option TagArg → Option TagArg → Op
  | opGetResultsSince : ℚ → Op

/-- Effect of one operation on the stored rows: `log` runs its
`INSERT`; the two queries only run `SELECT`s and leave the rows
unchanged. -/
def applyOp : Op → List Record → List Record
  | .opLog p tags jt argv now, db => (log db p tags jt argv now).1
  | .opGetByTag _ _, db => db
  | .opGetResultsSince _, db => db

/-- Row lists reachable from a fresh store by core operations. -/
inductive Reachable : List Record → Prop where
  | init : Reachable []
  | step (op : Op) {db : List Record} : Reachable db → Reachable (applyOp op db)

end Wallaby

namespace Wallaby

/-! ### Lemmas about `LIKE` matching -/

/-- ASCII-lowered character list (the comparison key of SQLite's
default `LIKE`). -/
def lowered (l : List Char) : List Char := l.map Char.toLower

/-- A pattern character with no wildcard meaning. -/
def plainChar (c : Char) : Bool := c != '%' && c != '_'

/-! ### Spec-side definitions and sample rows -/

/-- Modelled from the spec: "builds the delimited tag string as
`DELIM + tag1 + DELIM + tag2 + DELIM + ... + DELIM`" — the tail
`tag1 + DELIM + tag2 + DELIM + ...` of that expression. -/
def specTagTail : List String → String
  | [] => ""
  | t :: ts => t ++ DELIM ++ specTagTail ts

/-- Modelled from the spec: the delimited tag string
`DELIM + tag1 + DELIM + ... + DELIM`, with the empty tag list yielding
just `DELIM + DELIM`. -/
def specTagString : List String → String
  | [] => DELIM ++ DELIM
  | ts => DELIM ++ specTagTail ts

/-- `t` occurs in row `r` as a delimiter-framed stored tag value — the
store's own membership criterion (the substring test `get_by_tag`
applies, in its literal form). -/
def storedTagOf (r : Record) (t : String) : Prop :=
  (DELIM ++ t ++ DELIM).data <:+: r.tagscsv.data

/-- Claim C6 as stated: in every reachable state, every row's tag
string is delimiter-framed AND no stored tag value contains the
delimiter character. -/
def claimC6Prop : Prop :=
  ∀ db, Reachable db → ∀ r ∈ db,
    (r.tagscsv.data.head? = some ',' ∧ r.tagscsv.data.getLast? = some ',') ∧
    ∀ t, storedTagOf r t → t.data.contains ',' = false

/-- A sample stored row tagged `["foo", "bar"]`. -/
def recFooBar : Record := ⟨1, "job", ",foo,bar,", 1, "\x7b\x7d"⟩

/-- Sample rows with dates 1 and 2. -/
def recT1 : Record := ⟨1, "a", ",,", 1, "\x7b\x7d"⟩

def recT2 : Record := ⟨2, "b", ",,", 2, "\x7b\x7d"⟩

/-! ### Model of `json.loads` -/

/-- Numeric value of a hex digit character (either case); `16` marks a
non-hex-digit. -/
def hexVal (c : Char) : Nat :=
  if '0' ≤ c ∧ c ≤ '9' then c.toNat - 48
  else if 'a' ≤ c ∧ c ≤ 'f' then c.toNat - 87
  else if 'A' ≤ c ∧ c ≤ 'F' then c.toNat - 55
  else 16

/-- Value of a `\uXXXX` hex quadruple. -/
def hex4Val (a b c d : Char) : Nat :=
  hexVal a * 4096 + hexVal b * 256 + hexVal c * 16 + hexVal d

/-- The escape letters of the two-character JSON escapes and the
characters they decode to. -/
def escCharOf (e : Char) : Option Char :=
  if e = '"' then some '"'
  else if e = '\\' then some '\\'
  else if e = '/' then some '/'
  else if e = 'n' then some '\n'
  else if e = 'r' then some '\r'
  else if e = 't' then some '\t'
  else if e = 'b' then some '\x08'
  else if e = 'f' then some '\x0c'
  else none

/-- Strip an expected literal character sequence off the input. -/
def expectLit : List Char → List Char → Option (List Char)
  | [], s => some s
  | l :: ls, c :: r => if c = l then expectLit ls r else none
  | _ :: _, [] => none

/-- Read four hex digits. -/
def parseHexQuad : List Char → Option (Nat × List Char)
  | a :: b :: c :: d :: r => some (hex4Val a b c d, r)
  | _ => none

/-- Read a `\uXXXX` escape carrying a low surrogate. -/
def parseLowSurrogate (s : List Char) : Option (Nat × List Char) :=
  match expectLit ['\\', 'u'] s with
  | some r =>
    match parseHexQuad r with
    | some (m, r1) => if 0xDC00 ≤ m ∧ m < 0xE000 then some (m, r1) else none
    | none => none
  | none => none

/-- Decoder of a JSON string literal body (after the opening quote),
accumulating decoded characters in reverse; surrogate pairs are
combined into one code point, as Python's `json.loads` combines them.
`fuel` bounds the number of decoded characters (one unit each). -/
def parseStrBody : Nat → List Char → List Char → Option (String × List Char)
  | 0, _, _ => none
  | f + 1, acc, s =>
    match s with
    | [] => none
    | '"' :: r => some (⟨acc.reverse⟩, r)
    | '\\' :: e :: r =>
      if e = 'u' then
        match parseHexQuad r with
        | some (n, r1) =>
          if 0xD800 ≤ n ∧ n < 0xDC00 then
            match parseLowSurrogate r1 with
            | some (m, r2) =>
              parseStrBody f
                (Char.ofNat ((n - 0xD800) * 0x400 + (m - 0xDC00) + 0x10000) :: acc) r2
            | none => none
          else if n < 0xD800 ∨ (0xDFFF < n ∧ n < 0x110000) then
            parseStrBody f (Char.ofNat n :: acc) r1
          else none
        | none => none
      else
        match escCharOf e with
        | some c => parseStrBody f (c :: acc) r
        | none => none
    | c :: r => parseStrBody f (c :: acc) r

/-- Consume a run of decimal digits, accumulating their value. -/
def parseDigitsAux : List Char → Nat → Nat × List Char
  | c :: r, acc => if c.isDigit then parseDigitsAux r (acc * 10 + (c.toNat - 48)) else (acc, c :: r)
  | [], acc => (acc, [])

mutual

/-- Recursive-descent parser for JSON text in the exact format `dumps`
produces (whitespace only inside the fixed `", "` / `": "`
separators) — a model of `json.loads` on the canonical blobs the
store writes.  `fuel` dominates the document size; `loads` passes the
input length. -/
def parseVal : Nat → List Char → Option (Json × List Char)
  | 0, _ => none
  | _ + 1, [] => none
  | f + 1, c :: r =>
    if c = 'n' then
      match expectLit ['u', 'l', 'l'] r with
      | some r1 => some (.null, r1)
      | none => none
    else if c = 't' then
      match expectLit ['r', 'u', 'e'] r with
      | some r1 => some (.bool true, r1)
      | none => none
    else if c = 'f' then
      match expectLit ['a', 'l', 's', 'e'] r with
      | some r1 => some (.bool false, r1)
      | none => none
    else if c = '"' then
      match parseStrBody (r.length + 1) [] r with
      | some (s, r1) => some (.str s, r1)
      | none => none
    else if c = '[' then
      match parseItems f r with
      | some (xs, r1) => some (.arr xs, r1)
      | none => none
    else if c = '\x7b' then
      match parseMembers f r with
      | some (ms, r1) => some (.obj ms, r1)
      | none => none
    else if c = '-' then
      match r with
      | d :: r1 =>
        if d.isDigit then
          some (.num (-((parseDigitsAux r1 (d.toNat - 48)).1 : Int)),
            (parseDigitsAux r1 (d.toNat - 48)).2)
        else none
      | [] => none
    else if c.isDigit then
      some (.num ((parseDigitsAux r (c.toNat - 48)).1 : Int),
        (parseDigitsAux r (c.toNat - 48)).2)
    else none

/-- Parse the `", "`-separated members of a JSON array, up to and
including the closing bracket (empty if it comes first). -/
def parseItems : Nat → List Char → Option (List Json × List Char)
  | 0, _ => none
  | f + 1, s =>
    if s.head? = some ']' then some ([], s.tail)
    else
      match parseVal f s with
      | some (j, r) =>
        match r with
        | ']' :: r1 => some ([j], r1)
        | ',' :: r2 =>
          match expectLit [' '] r2 with
          | some r3 =>
            match parseItems f r3 with
            | some (js, r4) => some (j :: js, r4)
            | none => none
          | none => none
        | _ => none
      | none => none

/-- Parse the `", "`-separated `"key": value` members of a JSON
object, up to and including the closing brace (empty if it comes
first). -/
def parseMembers : Nat → List Char → Option (List (String × Json) × List Char)
  | 0, _ => none
  | f + 1, s =>
    match s with
    | '\x7d' :: r1 => some ([], r1)
    | '"' :: r =>
      match parseStrBody (r.length + 1) [] r with
      | some (k, r1) =>
        match expectLit [':', ' '] r1 with
        | some r2 =>
          match parseVal f r2 with
          | some (v, r3) =>
            match r3 with
            | '\x7d' :: r4 => some ([(k, v)], r4)
            | ',' :: r4 =>
              match expectLit [' '] r4 with
              | some r5 =>
                match parseMembers f r5 with
                | some (ms, r6) => some ((k, v) :: ms, r6)
                | none => none
              | none => none
            | _ => none
          | none => none
        | none => none
      | none => none
    | _ => none

end

/-- Model of `json.loads`, restricted to the canonical text `dumps`
produces. -/
def loads (s : String) : Option Json :=
  match parseVal (s.data.length + 1) s.data with
  | some (j, []) => some j
  | _ => none

mutual

/-- Fuel sufficient for `parseVal` on a document: one unit per
`parseVal`/`parseItems`/`parseMembers` step on the parsing path. -/
def jsize : Json → Nat
  | .null => 1
  | .bool _ => 1
  | .num _ => 1
  | .str _ => 1
  | .arr xs => 1 + jlistSize xs
  | .obj ms => 1 + jmemSize ms
termination_by j => sizeOf j
decreasing_by all_goals (simp_wf; try omega)

/-- Fuel sufficient for `parseItems` on an array's member list. -/
def jlistSize : List Json → Nat
  | [] => 1
  | x :: xs => 1 + max (jsize x) (jlistSize xs)
termination_by xs => sizeOf xs
decreasing_by all_goals (simp_wf; try omega)

/-- Fuel sufficient for `parseMembers` on an object's member list. -/
def jmemSize : List (String × Json) → Nat
  | [] => 1
  | (_, v) :: ms => 1 + max (jsize v) (jmemSize ms)
termination_by ms => sizeOf ms
decreasing_by all_goals (simp_wf; try omega)

end

/-- The character after a serialized number is never a digit (list
version: empty or non-digit head). -/
def notDigitHead : List Char → Prop
  | [] => True
  | c :: _ => c.isDigit = false

/-! ### Lemmas about `LIKE` matching -/

theorem likeMatch_pct (ps s : List Char) :
    likeMatch ('%' :: ps) s = true ↔ ∃ t, t <:+ s ∧ likeMatch ps t = true := by
  simp [likeMatch, List.any_eq_true, List.mem_tails]

theorem likeMatch_plain {q : List Char} (h : ∀ c ∈ q, plainChar c = true) (s : List Char) :
    likeMatch q s = true ↔ lowered q = lowered s := by
  induction q generalizing s with
  | nil =>
    cases s with
    | nil => simp [likeMatch, lowered]
    | cons c s2 => simp [likeMatch, lowered]
  | cons p ps ih =>
    have hp : plainChar p = true := h p (List.mem_cons_self _ _)
    have hps : ∀ c ∈ ps, plainChar c = true := fun c hc => h c (List.mem_cons_of_mem _ hc)
    have hp1 : ¬ p = '%' := by
      intro hcon; rw [hcon] at hp; simp [plainChar] at hp
    have hp2 : ¬ p = '_' := by
      intro hcon; rw [hcon] at hp; simp [plainChar] at hp
    cases s with
    | nil => simp [likeMatch, hp1, hp2, lowered]
    | cons c s2 =>
      simp only [likeMatch, if_neg hp1, if_neg hp2, Bool.and_eq_true, beq_iff_eq]
      rw [ih hps s2]
      simp only [lowered, List.map_cons, List.cons.injEq]

theorem likeMatch_plain_pct {q : List Char} (h : ∀ c ∈ q, plainChar c = true) (s : List Char) :
    likeMatch (q ++ ['%']) s = true ↔ ∃ a b, s = a ++ b ∧ lowered a = lowered q := by
  induction q generalizing s with
  | nil =>
    simp only [List.nil_append]
    constructor
    · intro _; exact ⟨[], s, rfl, rfl⟩
    · intro _
      rw [show (['%'] : List Char) = '%' :: [] from rfl, likeMatch_pct]
      exact ⟨[], List.nil_suffix, rfl⟩
  | cons p ps ih =>
    have hp : plainChar p = true := h p (List.mem_cons_self _ _)
    have hps : ∀ c ∈ ps, plainChar c = true := fun c hc => h c (List.mem_cons_of_mem _ hc)
    have hp1 : ¬ p = '%' := by
      intro hcon; rw [hcon] at hp; simp [plainChar] at hp
    have hp2 : ¬ p = '_' := by
      intro hcon; rw [hcon] at hp; simp [plainChar] at hp
    cases s with
    | nil =>
      simp only [List.cons_append, likeMatch, if_neg hp1, if_neg hp2]
      constructor
      · intro hcon; exact absurd hcon (by simp)
      · rintro ⟨a, b, hab, hla⟩
        have ha : a = [] := by
          cases a with
          | nil => rfl
          | cons x xs => simp at hab
        rw [ha] at hla
        simp [lowered] at hla
    | cons c s2 =>
      simp only [List.cons_append, likeMatch, if_neg hp1, if_neg hp2, Bool.and_eq_true,
        beq_iff_eq, List.append_eq]
      rw [ih hps s2]
      constructor
      · rintro ⟨hlc, a, b, hab, hla⟩
        refine ⟨c :: a, b, by rw [hab]; rfl, ?_⟩
        simp only [lowered, List.map_cons, List.cons.injEq] at hla ⊢
        exact ⟨hlc.symm ▸ rfl, hla⟩
      · rintro ⟨a, b, hab, hla⟩
        cases a with
        | nil => simp [lowered] at hla
        | cons x xs =>
          simp only [List.cons_append, List.cons.injEq] at hab
          simp only [lowered, List.map_cons, List.cons.injEq] at hla
          refine ⟨?_, xs, b, hab.2, hla.2⟩
          rw [hab.1]; exact hla.1.symm

theorem lowered_append (a b : List Char) : lowered (a ++ b) = lowered a ++ lowered b := by
  simp [lowered]

theorem lowered_length (a : List Char) : (lowered a).length = a.length := by
  simp [lowered]

/-- For a pattern `%q%` with `q` wildcard-free, SQLite `LIKE` is
exactly case-insensitive substring containment. -/
theorem likeMatch_pct_plain_pct {q : List Char} (h : ∀ c ∈ q, plainChar c = true)
    (s : List Char) :
    likeMatch ('%' :: (q ++ ['%'])) s = true ↔ lowered q <:+: lowered s := by
  rw [likeMatch_pct]
  constructor
  · rintro ⟨t, ⟨v, hv⟩, hm⟩
    rw [likeMatch_plain_pct h] at hm
    obtain ⟨a, b, hab, hla⟩ := hm
    refine ⟨lowered v, lowered b, ?_⟩
    rw [← hla, ← lowered_append, ← lowered_append, List.append_assoc, ← hab, hv]
  · rintro ⟨x, y, hxy⟩
    have hxl : x.length ≤ s.length := by
      have hl := congrArg List.length hxy
      simp [lowered] at hl
      omega
    refine ⟨s.drop x.length, List.drop_suffix _ _, ?_⟩
    rw [likeMatch_plain_pct h]
    refine ⟨(s.drop x.length).take q.length, (s.drop x.length).drop q.length,
      (List.take_append_drop _ _).symm, ?_⟩
    have hds : lowered (s.drop x.length) = lowered q ++ y := by
      have hmd : lowered (s.drop x.length) = (lowered s).drop x.length := by
        simp [lowered, List.map_drop]
      rw [hmd, ← hxy, List.append_assoc, List.drop_left]
    have hmt : lowered ((s.drop x.length).take q.length)
        = (lowered (s.drop x.length)).take q.length := by
      simp [lowered, List.map_take]
    rw [hmt, hds, ← lowered_length q, List.take_left]

/-- `String.data` distributes over append. -/
theorem strData_append (a b : String) : (a ++ b).data = a.data ++ b.data := by
  cases a; cases b; rfl

/-- String append is associative. -/
theorem strAppend_assoc (a b c : String) : a ++ b ++ c = a ++ (b ++ c) := by
  cases a with
  | mk x =>
    cases b with
    | mk y =>
      cases c with
      | mk z => exact congrArg String.mk (List.append_assoc x y z)

theorem tagPattern_data (t : String) :
    (tagPattern t).data = '%' :: ((',' :: t.data ++ [',']) ++ ['%']) := by
  unfold tagPattern
  rw [strData_append, strData_append]
  have h1 : "%,".data = ['%', ','] := rfl
  have h2 : ",%".data = [',', '%'] := rfl
  rw [h1, h2]
  simp

theorem delim_frame_data (t : String) :
    (DELIM ++ t ++ DELIM).data = ',' :: t.data ++ [','] := by
  rw [strData_append, strData_append]
  have h1 : DELIM.data = [','] := rfl
  rw [h1]
  simp

/-- Per-tag matching for wildcard-free tags is case-insensitive
containment of the delimiter-framed tag in the stored tag string. -/
theorem matchesTag_iff {t : String} (h : ∀ c ∈ t.data, plainChar c = true) (r : Record) :
    matchesTag t r = true ↔
      lowered (DELIM ++ t ++ DELIM).data <:+: lowered r.tagscsv.data := by
  have hq : ∀ c ∈ (',' :: t.data ++ [',']), plainChar c = true := by
    intro c hc
    simp only [List.cons_append, List.mem_cons, List.mem_append, List.not_mem_nil,
      or_false] at hc
    rcases hc with h1 | h2 | h3
    · rw [h1]; decide
    · exact h c h2
    · rw [h3]; decide
  unfold matchesTag
  rw [tagPattern_data, likeMatch_pct_plain_pct hq, delim_frame_data]

/-- Every reachable row's `tagscsv` came out of `buildTagscsv` and so
is comma-framed. -/
theorem reachable_tagscsv {db : List Record} (hr : Reachable db) :
    ∀ r ∈ db, ∃ mid : String, r.tagscsv = DELIM ++ mid ++ DELIM := by
  induction hr with
  | init => intro r hrr; exact absurd hrr (List.not_mem_nil r)
  | step op hdb ih =>
    cases op with
    | opLog p tags jt argv now =>
      intro r hrr
      simp only [applyOp, log, List.mem_append, List.mem_singleton] at hrr
      rcases hrr with h1 | h2
      · exact ih r h1
      · rw [h2]
        exact ⟨_, rfl⟩
    | opGetByTag a b => exact ih
    | opGetResultsSince t => exact ih

/-- One step of `likeMatch` on a wildcard-free pattern head. -/
theorem likeMatch_step {p : Char} (hp1 : ¬ p = '%') (hp2 : ¬ p = '_') (ps : List Char)
    (c : Char) (s : List Char) :
    likeMatch (p :: ps) (c :: s) = ((p.toLower == c.toLower) && likeMatch ps s) := by
  simp only [likeMatch]
  rw [if_neg hp1, if_neg hp2]

theorem likeMatch_pct_frame (mid : List Char) :
    likeMatch ['%', ',', '%', ',', '%'] (',' :: mid ++ [',']) = true := by
  rw [show (['%', ',', '%', ',', '%'] : List Char) = '%' :: [',', '%', ',', '%'] from rfl,
    likeMatch_pct]
  refine ⟨',' :: (mid ++ [',']), List.suffix_refl _, ?_⟩
  rw [show ([',', '%', ',', '%'] : List Char) = ',' :: ['%', ',', '%'] from rfl,
    likeMatch_step (by decide) (by decide), Bool.and_eq_true]
  refine ⟨rfl, ?_⟩
  rw [show (['%', ',', '%'] : List Char) = '%' :: [',', '%'] from rfl, likeMatch_pct]
  exact ⟨[','], ⟨mid, rfl⟩, by decide⟩

/-- A query for the bare wildcard tag `%` matches every comma-framed
row. -/
theorem matchesTag_pct {r : Record} (hmid : ∃ mid : String, r.tagscsv = DELIM ++ mid ++ DELIM) :
    matchesTag "%" r = true := by
  obtain ⟨mid, hm⟩ := hmid
  unfold matchesTag
  rw [hm, delim_frame_data]
  exact likeMatch_pct_frame mid.data

/-! ### Small string and id helpers -/

theorem strAppend_empty (s : String) : s ++ "" = s := by
  cases s with
  | mk l => exact congrArg String.mk (List.append_nil l)

theorem maxId_cons (x : Record) (xs : List Record) :
    maxId (x :: xs) = max x.id (maxId xs) := rfl

theorem le_maxId (db : List Record) : ∀ r ∈ db, r.id ≤ maxId db := by
  induction db with
  | nil => intro r h; exact absurd h (List.not_mem_nil r)
  | cons x xs ih =>
    intro r h
    rcases List.mem_cons.mp h with h1 | h2
    · rw [h1, maxId_cons]; exact Nat.le_max_left _ _
    · rw [maxId_cons]; exact le_trans (ih r h2) (Nat.le_max_right _ _)

theorem specTagString_cons (t : String) (ts : List String) :
    specTagString (t :: ts) = DELIM ++ specTagTail (t :: ts) := rfl

theorem joinComma_tail (t : String) (ts : List String) :
    joinComma (t :: ts) ++ DELIM = specTagTail (t :: ts) := by
  induction ts generalizing t with
  | nil =>
    show t ++ DELIM = t ++ DELIM ++ ""
    exact (strAppend_empty _).symm
  | cons u us ih =>
    show t ++ "," ++ joinComma (u :: us) ++ DELIM = t ++ DELIM ++ specTagTail (u :: us)
    rw [strAppend_assoc, ih u]
    rfl

/-! ### Claim theorems: the append path -/

/-- Claim C3: `log` reports success, and appends exactly one new row
whose id is strictly greater than the id of every row present before
the call. -/
theorem claim_C3 (db : List Record) (p : Json) (tags : Option (List String))
    (jt : Option String) (argv : String) (now : ℚ) :
    (log db p tags jt argv now).2 = true ∧
    (log db p tags jt argv now).1 = db ++ [mkRecord db p tags jt argv now] ∧
    (log db p tags jt argv now).1.length = db.length + 1 ∧
    ∀ r ∈ db, r.id < (mkRecord db p tags jt argv now).id := by
  refine ⟨rfl, rfl, by simp [log], ?_⟩
  intro r hr
  have h := le_maxId db r hr
  show r.id < maxId db + 1
  omega

/-- Witness for C3 at a concrete store and payload. -/
theorem claim_C3_witness :
    recFooBar ∈ [recFooBar] ∧
      recFooBar.id < (mkRecord [recFooBar] .null none none "" 0).id :=
  ⟨List.mem_singleton.mpr rfl,
    (claim_C3 [recFooBar] .null none none "" 0).2.2.2 recFooBar (List.mem_singleton.mpr rfl)⟩

/-- Claim C5: the stored delimited tag string is exactly the spec's
`DELIM + tag1 + DELIM + ... + DELIM` form, tags kept in order and with
duplicates, and `DELIM + DELIM` for an empty or omitted tag list. -/
theorem claim_C5 (db : List Record) (p : Json) (tags : Option (List String))
    (jt : Option String) (argv : String) (now : ℚ) :
    (mkRecord db p tags jt argv now).tagscsv = specTagString (tags.getD []) := by
  show buildTagscsv tags = _
  cases tags with
  | none =>
    show DELIM ++ "" ++ DELIM = specTagString []
    rw [strAppend_empty]
    rfl
  | some ts =>
    cases ts with
    | nil =>
      show DELIM ++ "" ++ DELIM = specTagString []
      rw [strAppend_empty]
      rfl
    | cons t ts' =>
      show DELIM ++ joinComma (t :: ts') ++ DELIM = specTagString (t :: ts')
      rw [specTagString_cons, strAppend_assoc, joinComma_tail]

/-! ### Claim theorems: the query paths -/

/-- Claim C2 counterexample: supplying both `all_of` and `any_of` does
NOT raise `InvalidQueryFault` — the query runs (here on an empty store)
and returns rows. -/
theorem claim_C2_cex :
    get_by_tag (some (.list ["foo"])) (some (.list ["bar"])) [] = .ok [] := by decide

/-- Claim C2 (amended): supplying neither `all_of` nor `any_of`
(including empty, hence falsy, values) raises `InvalidQueryFault`, and
no query step ever touches the stored rows; but when both are
supplied the truthy `all_of` silently takes precedence and `any_of`
is ignored, with no fault raised. -/
theorem claim_C2 (a b : Option TagArg) (db : List Record) :
    (truthy a = false → truthy b = false → get_by_tag a b db = .error .invalidQuery) ∧
    (truthy a = true → ∀ b' : Option TagArg, get_by_tag a b db = get_by_tag a b' db) ∧
    applyOp (.opGetByTag a b) db = db := by
  refine ⟨?_, ?_, rfl⟩
  · intro ha hb
    simp [get_by_tag, ha, hb]
  · intro ha b'
    simp [get_by_tag, ha]

/-- Witness for C2: with neither argument supplied the fault is
raised. -/
theorem claim_C2_witness : get_by_tag none none [] = .error .invalidQuery :=
  (claim_C2 none none []).1 rfl rfl

/-- Claim C4: `get_results_since` returns exactly the rows whose
`date` strictly exceeds the timestamp (a row dated exactly at the
timestamp is excluded), as a sublist of the store, i.e. in storage
order. -/
theorem claim_C4 (since : ℚ) (db : List Record) :
    (∀ r : Record, r ∈ get_results_since since db ↔ r ∈ db ∧ since < r.date) ∧
    (get_results_since since db).Sublist db ∧
    (∀ r ∈ db, r.date = since → r ∉ get_results_since since db) := by
  refine ⟨?_, List.filter_sublist _, ?_⟩
  · intro r
    simp [get_results_since, List.mem_filter]
  · intro r _ hd hmem
    simp [get_results_since, List.mem_filter] at hmem
    rw [hd] at hmem
    exact lt_irrefl since hmem.2

/-- Witness for C4 at a concrete two-row store: the row dated exactly
at the timestamp is excluded. -/
theorem claim_C4_witness : recT1 ∉ get_results_since 1 [recT1, recT2] :=
  (claim_C4 1 [recT1, recT2]).2.2 recT1 (List.mem_cons_self _ _) rfl

/-! ### Claim theorems: frame and provisioning -/

/-- Each single operation extends the row list as a prefix. -/
theorem applyOp_extends (op : Op) (db : List Record) : db <+: applyOp op db := by
  cases op with
  | opLog p tags jt argv now => exact ⟨[mkRecord db p tags jt argv now], rfl⟩
  | opGetByTag a b => exact List.prefix_refl db
  | opGetResultsSince t => exact List.prefix_refl db

/-- Claim C8: records are immutable — queries leave the rows
unchanged, `log` only appends one row, and any sequence of core
operations keeps all existing rows in place (the old store is a
prefix of the new one). -/
theorem claim_C8 (ops : List Op) (db : List Record) :
    db <+: List.foldl (fun s op => applyOp op s) db ops ∧
    (∀ a b : Option TagArg, applyOp (.opGetByTag a b) db = db) ∧
    (∀ since : ℚ, applyOp (.opGetResultsSince since) db = db) ∧
    (∀ p tags jt argv now, applyOp (.opLog p tags jt argv now) db
      = db ++ [mkRecord db p tags jt argv now]) := by
  refine ⟨?_, fun a b => rfl, fun since => rfl, fun p tags jt argv now => rfl⟩
  induction ops generalizing db with
  | nil => exact List.prefix_refl db
  | cons op ops ih =>
    simp only [List.foldl_cons]
    exact (applyOp_extends op db).trans (ih (applyOp op db))

/-- Claim C9: provisioning is idempotent — running the schema setup
against an existing table never changes it (and never raises: the
model is total), re-provisioning equals provisioning once, and all
subsequent operations behave identically after one or two
provisionings. -/
theorem claim_C9 :
    (∀ t : Table, ensureSchema (some t) = some t) ∧
    (∀ d : Option Table, ensureSchema (ensureSchema d) = ensureSchema d) ∧
    (∀ (d : Option Table) (op : Op),
      ((ensureSchema (ensureSchema d)).map fun t => applyOp op t.rows)
        = ((ensureSchema d).map fun t => applyOp op t.rows)) := by
  refine ⟨fun t => rfl, ?_, ?_⟩
  · intro d; cases d with
    | none => rfl
    | some t => rfl
  · intro d op; cases d with
    | none => rfl
    | some t => rfl

/-! ### Claim theorems: tag invariants and query injection -/

/-- Claim C6 counterexample: `log` accepts the tag `"a,b"`, which
contains the delimiter, and stores it verbatim; in the resulting
reachable state the framed form `,a,b,` occurs in the stored tag
string, i.e. `"a,b"` is a stored tag value by the store's own
membership criterion, and it contains the delimiter — refuting the
claim's "no stored tag value contains the delimiter / the delimiter
is reserved" invariant. -/
theorem claim_C6_cex : ¬ claimC6Prop := by
  intro h
  have hreach : Reachable (applyOp (.opLog .null (some ["a,b"]) none "" 0) []) :=
    Reachable.step _ Reachable.init
  have hmem : mkRecord [] .null (some ["a,b"]) none "" 0
      ∈ applyOp (.opLog .null (some ["a,b"]) none "" 0) [] := by
    simp [applyOp, log]
  have hst : storedTagOf (mkRecord [] .null (some ["a,b"]) none "" 0) "a,b" := by
    unfold storedTagOf
    have ht : (mkRecord [] .null (some ["a,b"]) none "" 0).tagscsv = ",a,b," := by decide
    have heq : (DELIM ++ "a,b" ++ DELIM) = ",a,b," := by decide
    rw [ht, heq]
  have h2 := (h _ hreach _ hmem).2 "a,b" hst
  have h3 : ("a,b" : String).data.contains ',' = true := by decide
  rw [h3] at h2
  exact Bool.noConfusion h2

/-- Claim C6 (amended): in every reachable state, every row's stored
tag string does begin and end with the delimiter character; but the
delimiter is not enforced as reserved — `log` stores tags containing
it verbatim (see the counterexample), so only the framing half of the
invariant holds. -/
theorem claim_C6 {db : List Record} (hr : Reachable db) :
    ∀ r ∈ db, r.tagscsv.data.head? = some ',' ∧ r.tagscsv.data.getLast? = some ',' := by
  intro r hrr
  obtain ⟨mid, hm⟩ := reachable_tagscsv hr r hrr
  rw [hm, delim_frame_data]
  refine ⟨rfl, ?_⟩
  rw [show (',' :: mid.data ++ [','] : List Char) = (',' :: mid.data) ++ [','] from rfl]
  exact List.getLast?_concat _

/-- Witness for C6 at a concrete reachable one-row store. -/
theorem claim_C6_witness :
    (mkRecord [] .null (some ["foo"]) none "" 0).tagscsv.data.head? = some ',' ∧
    (mkRecord [] .null (some ["foo"]) none "" 0).tagscsv.data.getLast? = some ',' :=
  claim_C6 (Reachable.step (.opLog .null (some ["foo"]) none "" 0) Reachable.init) _
    (by simp [applyOp, log])

/-- `runTagClause` on quote-free tags runs the LIKE filter. -/
theorem runTagClause_ok (isAnd : Bool) (ts : List String) (db : List Record)
    (hq : (ts.any fun t => t.data.contains '\'') = false) :
    runTagClause isAnd ts db = .ok (db.filter fun r =>
      if isAnd then ts.all (fun t => matchesTag t r) else ts.any (fun t => matchesTag t r)) := by
  unfold runTagClause
  rw [hq]
  simp

/-- `get_by_tag` with a non-empty `all_of` list runs the AND clause,
whatever `any_of` is. -/
theorem get_by_tag_allOf (ts : List String) (hne : ts ≠ []) (b : Option TagArg)
    (db : List Record) :
    get_by_tag (some (.list ts)) b db = runTagClause true ts db := by
  cases ts with
  | nil => exact absurd rfl hne
  | cons t ts' => rfl

/-- `get_by_tag` with no `all_of` and a non-empty `any_of` list runs
the OR clause. -/
theorem get_by_tag_anyOf (ts : List String) (hne : ts ≠ []) (db : List Record) :
    get_by_tag none (some (.list ts)) db = runTagClause false ts db := by
  cases ts with
  | nil => exact absurd rfl hne
  | cons t ts' => rfl

/-- Claim C10: query tags are interpolated verbatim into the LIKE
pattern, so (i) `any_of = ["%"]` returns every row of any reachable
store; (ii) in particular the `,foo,bar,` row matches `%` although
`,%,` does not occur in its tag string — the tag is not carried as an
exact delimiter-framed value; (iii) a tag containing a single quote
makes the operation fail with a storage fault instead of returning no
matches. -/
theorem claim_C10 {db : List Record} (hr : Reachable db) :
    get_by_tag none (some (.list ["%"])) db = .ok db ∧
    (matchesTag "%" recFooBar = true ∧
      ¬ (DELIM ++ "%" ++ DELIM).data <:+: recFooBar.tagscsv.data) ∧
    (∀ (db' : List Record) (b : Option TagArg),
      get_by_tag (some (.list ["don't"])) b db' = .error .storage) := by
  refine ⟨?_, ⟨by decide, by decide⟩, ?_⟩
  · rw [get_by_tag_anyOf _ (by simp) db,
      runTagClause_ok false ["%"] db (by decide)]
    have hfil : (db.filter fun r =>
        if (false : Bool) then List.all ["%"] (fun t => matchesTag t r)
        else List.any ["%"] fun t => matchesTag t r) = db := by
      apply List.filter_eq_self.mpr
      intro r hrr
      simp only [if_false, List.any_cons, List.any_nil, Bool.or_false]
      exact matchesTag_pct (reachable_tagscsv hr r hrr)
    rw [hfil]
  · intro db' b
    rw [get_by_tag_allOf _ (by simp) b db']
    unfold runTagClause
    rw [show ((["don't"] : List String).any fun t => t.data.contains '\'') = true from by decide]
    simp

/-- Witness for C10 at the empty (reachable) store. -/
theorem claim_C10_witness :
    get_by_tag none (some (.list ["%"])) ([] : List Record) = .ok [] ∧
    (matchesTag "%" recFooBar = true ∧
      ¬ (DELIM ++ "%" ++ DELIM).data <:+: recFooBar.tagscsv.data) ∧
    (∀ (db' : List Record) (b : Option TagArg),
      get_by_tag (some (.list ["don't"])) b db' = .error .storage) :=
  claim_C10 Reachable.init

/-- Claim C1 counterexample: the claimed equivalence "`t` matches a
row iff the stored tag string contains `DELIM + t + DELIM`" fails for
the query tag `%` on the row tagged `["foo", "bar"]`: the LIKE-based
match succeeds although `,%,` is not a substring of `,foo,bar,`. -/
theorem claim_C1_cex :
    matchesTag "%" recFooBar = true ∧
    ¬ (DELIM ++ "%" ++ DELIM).data <:+: recFooBar.tagscsv.data :=
  ⟨by decide, by decide⟩

/-- Claim C1 (amended): for query tags free of the LIKE wildcards `%`
and `_`, a tag matches a row exactly when the stored delimited tag
string contains `DELIM + t + DELIM` up to ASCII case (SQLite's `LIKE`
compares case-insensitively); `all_of` combines the per-tag
predicates with AND and `any_of` with OR over the rows in storage
order; and the four concrete examples of the claim hold: the
`["foo","bar"]` row is returned for `all_of=["foo","bar"]` and
`any_of=["baz","foo"]` but not for `all_of=["foo","baz"]` or
`all_of=["ba"]`. -/
theorem claim_C1 :
    (∀ (t : String) (r : Record), (∀ c ∈ t.data, plainChar c = true) →
      (matchesTag t r = true ↔
        lowered (DELIM ++ t ++ DELIM).data <:+: lowered r.tagscsv.data)) ∧
    (∀ (ts : List String) (db : List Record) (r : Record),
      (ts.any fun t => t.data.contains '\'') = false → ts ≠ [] →
      (get_by_tag (some (.list ts)) none db
          = .ok (db.filter fun r' => ts.all fun t => matchesTag t r') ∧
        get_by_tag none (some (.list ts)) db
          = .ok (db.filter fun r' => ts.any fun t => matchesTag t r') ∧
        ((r ∈ db.filter fun r' => ts.all fun t => matchesTag t r')
          ↔ r ∈ db ∧ ∀ t ∈ ts, matchesTag t r = true) ∧
        ((r ∈ db.filter fun r' => ts.any fun t => matchesTag t r')
          ↔ r ∈ db ∧ ∃ t ∈ ts, matchesTag t r = true))) ∧
    (get_by_tag (some (.list ["foo", "bar"])) none [recFooBar] = .ok [recFooBar] ∧
      get_by_tag (some (.list ["foo", "baz"])) none [recFooBar] = .ok [] ∧
      get_by_tag none (some (.list ["baz", "foo"])) [recFooBar] = .ok [recFooBar] ∧
      get_by_tag (some (.list ["ba"])) none [recFooBar] = .ok []) := by
  refine ⟨fun t r h => matchesTag_iff h r, ?_, by decide, by decide, by decide, by decide⟩
  intro ts db r hq hne
  refine ⟨?_, ?_, ?_, ?_⟩
  · rw [get_by_tag_allOf ts hne none db, runTagClause_ok true ts db hq]
    simp
  · rw [get_by_tag_anyOf ts hne db, runTagClause_ok false ts db hq]
    simp
  · simp [List.mem_filter, List.all_eq_true]
  · simp [List.mem_filter, List.any_eq_true]

/-- Witness for C1: the case-insensitive-containment reading at the
tag `foo` on the sample row, and the AND query at a concrete store. -/
theorem claim_C1_witness :
    (matchesTag "foo" recFooBar = true ↔
      lowered (DELIM ++ "foo" ++ DELIM).data <:+: lowered recFooBar.tagscsv.data) ∧
    get_by_tag (some (.list ["foo"])) none [recFooBar]
      = .ok ([recFooBar].filter fun r' => ["foo"].all fun t => matchesTag t r') :=
  ⟨claim_C1.1 "foo" recFooBar (by decide),
    (claim_C1.2.1 ["foo"] [recFooBar] recFooBar (by decide) (by decide)).1⟩

/-! ### Decimal digits round-trip -/

theorem hexDigit_toNat {d : Nat} (h : d < 10) :
    (hexDigit d).isDigit = true ∧ (hexDigit d).toNat = 48 + d := by
  interval_cases d <;> exact ⟨by decide, by decide⟩

theorem parseDigitsAux_stop {rest : List Char} (h : notDigitHead rest) (acc : Nat) :
    parseDigitsAux rest acc = (acc, rest) := by
  cases rest with
  | nil => rfl
  | cons c r =>
    unfold parseDigitsAux
    rw [show c.isDigit = false from h]
    simp

theorem parseDigitsAux_run {ds : List Char} (hds : ∀ c ∈ ds, c.isDigit = true)
    {rest : List Char} (hr : notDigitHead rest) (acc : Nat) :
    parseDigitsAux (ds ++ rest) acc
      = (ds.foldl (fun a c => a * 10 + (c.toNat - 48)) acc, rest) := by
  induction ds generalizing acc with
  | nil => exact parseDigitsAux_stop hr acc
  | cons d ds ih =>
    have hd : d.isDigit = true := hds d (List.mem_cons_self _ _)
    show parseDigitsAux (d :: (ds ++ rest)) acc = _
    unfold parseDigitsAux
    rw [hd]
    simp only [if_true, List.foldl_cons]
    exact ih (fun c hc => hds c (List.mem_cons_of_mem _ hc)) _

theorem natDigits_digits : ∀ (f n : Nat), ∀ c ∈ natDigits f n, c.isDigit = true := by
  intro f
  induction f with
  | zero => intro n c hc; exact absurd hc (List.not_mem_nil c)
  | succ f ih =>
    intro n c hc
    unfold natDigits at hc
    by_cases h : n < 10
    · rw [if_pos h] at hc
      rcases List.mem_singleton.mp hc with rfl
      exact (hexDigit_toNat h).1
    · rw [if_neg h] at hc
      rcases List.mem_append.mp hc with h1 | h2
      · exact ih _ c h1
      · rcases List.mem_singleton.mp h2 with rfl
        exact (hexDigit_toNat (Nat.mod_lt _ (by norm_num))).1

theorem natDigits_ne_nil {f n : Nat} (h : 0 < f) : natDigits f n ≠ [] := by
  cases f with
  | zero => exact absurd h (lt_irrefl 0)
  | succ f =>
    unfold natDigits
    by_cases hn : n < 10
    · rw [if_pos hn]; simp
    · rw [if_neg hn]; simp

theorem foldl_natDigits : ∀ (n f acc : Nat), n < f →
    (natDigits f n).foldl (fun a c => a * 10 + (c.toNat - 48)) acc
      = acc * 10 ^ (natDigits f n).length + n := by
  intro n
  induction n using Nat.strong_induction_on with
  | _ n ih =>
    intro f acc hf
    cases f with
    | zero => exact absurd hf (Nat.not_lt_zero n)
    | succ f =>
      unfold natDigits
      by_cases hn : n < 10
      · rw [if_pos hn]
        simp only [List.foldl_cons, List.foldl_nil, List.length_singleton]
        rw [(hexDigit_toNat hn).2]
        ring_nf
        omega
      · rw [if_neg hn]
        have h10 : (10 : Nat) ≤ n := Nat.le_of_not_lt hn
        have hdiv : n / 10 < n := Nat.div_lt_self (by omega) (by norm_num)
        have hdivf : n / 10 < f := by
          have : n ≤ f := Nat.lt_succ_iff.mp hf
          omega
        rw [List.foldl_append]
        simp only [List.foldl_cons, List.foldl_nil]
        rw [ih (n / 10) hdiv f acc hdivf]
        rw [(hexDigit_toNat (Nat.mod_lt _ (by norm_num))).2]
        rw [List.length_append, List.length_singleton, pow_succ]
        have hmod : 48 + n % 10 - 48 = n % 10 := by omega
        rw [hmod]
        have hnm : n / 10 * 10 + n % 10 = n := by omega
        set k := 10 ^ (natDigits f (n / 10)).length
        ring_nf
        omega

theorem parseDigitsAux_natDec {n : Nat} {rest : List Char} (hr : notDigitHead rest) :
    parseDigitsAux (natDec n ++ rest) 0 = (n, rest) := by
  rw [show natDec n = natDigits (n + 1) n from rfl,
    parseDigitsAux_run (natDigits_digits (n + 1) n) hr 0,
    foldl_natDigits n (n + 1) 0 (Nat.lt_succ_self n)]
  simp

/-! ### String escaping round-trip -/

theorem hexVal_hexDigit {d : Nat} (h : d < 16) : hexVal (hexDigit d) = d := by
  interval_cases d <;> decide

theorem hex4Val_hex4 {n : Nat} (h : n < 65536) :
    hex4Val (hexDigit (n / 4096 % 16)) (hexDigit (n / 256 % 16))
      (hexDigit (n / 16 % 16)) (hexDigit (n % 16)) = n := by
  unfold hex4Val
  rw [hexVal_hexDigit (Nat.mod_lt _ (by norm_num)),
    hexVal_hexDigit (Nat.mod_lt _ (by norm_num)),
    hexVal_hexDigit (Nat.mod_lt _ (by norm_num)),
    hexVal_hexDigit (Nat.mod_lt _ (by norm_num))]
  omega

theorem parseHexQuad_hex4 {n : Nat} (h : n < 65536) (rest : List Char) :
    parseHexQuad (hex4 n ++ rest) = some (n, rest) := by
  show parseHexQuad (hexDigit (n / 4096 % 16) :: hexDigit (n / 256 % 16)
    :: hexDigit (n / 16 % 16) :: hexDigit (n % 16) :: rest) = _
  rw [show parseHexQuad (hexDigit (n / 4096 % 16) :: hexDigit (n / 256 % 16)
    :: hexDigit (n / 16 % 16) :: hexDigit (n % 16) :: rest)
    = some (hex4Val (hexDigit (n / 4096 % 16)) (hexDigit (n / 256 % 16))
      (hexDigit (n / 16 % 16)) (hexDigit (n % 16)), rest) from rfl]
  rw [hex4Val_hex4 h]

theorem parseLowSurrogate_hex4 {m : Nat} (hm : 0xDC00 ≤ m ∧ m < 0xE000)
    (rest : List Char) :
    parseLowSurrogate ('\\' :: 'u' :: (hex4 m ++ rest)) = some (m, rest) := by
  unfold parseLowSurrogate
  rw [show expectLit ['\\', 'u'] ('\\' :: 'u' :: (hex4 m ++ rest))
    = some (hex4 m ++ rest) from by simp [expectLit]]
  show (match parseHexQuad (hex4 m ++ rest) with
    | some (m, r1) => if 0xDC00 ≤ m ∧ m < 0xE000 then some (m, r1) else none
    | none => none) = some (m, rest)
  rw [parseHexQuad_hex4 (by omega)]
  simp [hm]

theorem parseStrBody_quote (f : Nat) (acc rest : List Char) :
    parseStrBody (f + 1) acc ('"' :: rest) = some (⟨acc.reverse⟩, rest) := by
  simp [parseStrBody]

theorem parseStrBody_esc (f : Nat) (acc : List Char) (e : Char) (r : List Char) :
    parseStrBody (f + 1) acc ('\\' :: e :: r)
      = (if e = 'u' then
          match parseHexQuad r with
          | some (n, r1) =>
            if 0xD800 ≤ n ∧ n < 0xDC00 then
              match parseLowSurrogate r1 with
              | some (m, r2) =>
                parseStrBody f
                  (Char.ofNat ((n - 0xD800) * 0x400 + (m - 0xDC00) + 0x10000) :: acc) r2
              | none => none
            else if n < 0xD800 ∨ (0xDFFF < n ∧ n < 0x110000) then
              parseStrBody f (Char.ofNat n :: acc) r1
            else none
          | none => none
        else
          match escCharOf e with
          | some c => parseStrBody f (c :: acc) r
          | none => none) := by
  simp [parseStrBody]

theorem parseStrBody_plain (f : Nat) {c : Char} (h1 : ¬ c = '"') (h2 : ¬ c = '\\')
    (acc rest : List Char) :
    parseStrBody (f + 1) acc (c :: rest) = parseStrBody f (c :: acc) rest := by
  conv_lhs => rw [parseStrBody.eq_def]
  split
  · rename_i heq
    exact absurd heq (by simp)
  · rename_i f2 heq
    injection heq with hf
    subst hf
    split
    · rename_i heq2
      exact absurd heq2 (by simp)
    · rename_i heq2
      injection heq2 with hc _
      exact absurd hc h1
    · rename_i heq2
      injection heq2 with hc _
      exact absurd hc h2
    · rename_i c2 r2 heq2
      injection heq2 with hc hr
      rw [← hc, ← hr]

theorem parseStrBody_u_bmp {n : Nat} (hn : n < 0xd800 ∨ (0xdfff < n ∧ n < 0x10000))
    (f : Nat) (acc rest : List Char) :
    parseStrBody (f + 1) acc ('\\' :: 'u' :: (hex4 n ++ rest))
      = parseStrBody f (Char.ofNat n :: acc) rest := by
  have h16 : n < 65536 := by omega
  rw [parseStrBody_esc, if_pos rfl, parseHexQuad_hex4 h16]
  simp only []
  rw [if_neg (by omega), if_pos (by omega)]

theorem parseStrBody_u_astral {n : Nat} (h1 : 0x10000 ≤ n) (h2 : n < 0x110000)
    (f : Nat) (acc rest : List Char) :
    parseStrBody (f + 1) acc ('\\' :: 'u' :: (hex4 (0xD800 + (n - 0x10000) / 0x400)
      ++ ('\\' :: 'u' :: (hex4 (0xDC00 + (n - 0x10000) % 0x400) ++ rest))))
      = parseStrBody f (Char.ofNat n :: acc) rest := by
  have hm1 : (n - 0x10000) / 0x400 < 0x400 := by omega
  have hm2 : (n - 0x10000) % 0x400 < 0x400 := by omega
  rw [parseStrBody_esc, if_pos rfl, parseHexQuad_hex4 (by omega)]
  simp only []
  rw [if_pos (by omega), parseLowSurrogate_hex4 (by omega)]
  simp only []
  rw [show (0xD800 + (n - 0x10000) / 0x400 - 0xD800) * 0x400
    + (0xDC00 + (n - 0x10000) % 0x400 - 0xDC00) + 0x10000 = n from by omega]

theorem escChar_parse (c : Char) (f : Nat) (acc rest : List Char) :
    parseStrBody (f + 1) acc (escChar c ++ rest) = parseStrBody f (c :: acc) rest := by
  by_cases h1 : c = '"'
  · subst h1
    show parseStrBody (f + 1) acc ('\\' :: '"' :: rest) = _
    rw [parseStrBody_esc]
    simp [escCharOf]
  by_cases h2 : c = '\\'
  · subst h2
    show parseStrBody (f + 1) acc ('\\' :: '\\' :: rest) = _
    rw [parseStrBody_esc]
    simp [escCharOf]
  by_cases h3 : c = '\n'
  · subst h3
    show parseStrBody (f + 1) acc ('\\' :: 'n' :: rest) = _
    rw [parseStrBody_esc]
    simp [escCharOf]
  by_cases h4 : c = '\r'
  · subst h4
    show parseStrBody (f + 1) acc ('\\' :: 'r' :: rest) = _
    rw [parseStrBody_esc]
    simp [escCharOf]
  by_cases h5 : c = '\t'
  · subst h5
    show parseStrBody (f + 1) acc ('\\' :: 't' :: rest) = _
    rw [parseStrBody_esc]
    simp [escCharOf]
  by_cases h6 : c = '\x08'
  · subst h6
    show parseStrBody (f + 1) acc ('\\' :: 'b' :: rest) = _
    rw [parseStrBody_esc]
    simp [escCharOf]
  by_cases h7 : c = '\x0c'
  · subst h7
    show parseStrBody (f + 1) acc ('\\' :: 'f' :: rest) = _
    rw [parseStrBody_esc]
    simp [escCharOf]
  by_cases h8 : c.toNat < 0x20 ∨ 0x7e < c.toNat
  · have hesc : escChar c = uEscape c.toNat := by
      simp only [escChar, if_neg h1, if_neg h2, if_neg h3, if_neg h4, if_neg h5,
        if_neg h6, if_neg h7, if_pos h8]
    rw [hesc]
    have hv : c.toNat < 0xd800 ∨ (0xdfff < c.toNat ∧ c.toNat < 0x110000) := c.valid
    unfold uEscape
    by_cases h9 : c.toNat < 0x10000
    · rw [if_pos h9]
      simp only [List.cons_append]
      rw [parseStrBody_u_bmp (by omega), Char.ofNat_toNat]
    · rw [if_neg h9]
      simp only [List.cons_append, List.append_assoc]
      rw [parseStrBody_u_astral (by omega) (by omega), Char.ofNat_toNat]
  · have hesc : escChar c = [c] := by
      simp only [escChar, if_neg h1, if_neg h2, if_neg h3, if_neg h4, if_neg h5,
        if_neg h6, if_neg h7, if_neg h8]
    rw [hesc]
    exact parseStrBody_plain f h1 h2 acc rest

/-- Decoding inverts the escaped rendering of a whole string body,
given fuel exceeding the number of source characters. -/
theorem parseStrBody_escaped (cs : List Char) : ∀ f : Nat, cs.length < f →
    ∀ acc rest : List Char,
    parseStrBody f acc ((cs.foldr (fun c acc2 => escChar c ++ acc2) []) ++ '"' :: rest)
      = some (⟨acc.reverse ++ cs⟩, rest) := by
  induction cs with
  | nil =>
    intro f hf acc rest
    obtain ⟨g, rfl⟩ : ∃ g, f = g + 1 := ⟨f - 1, by omega⟩
    show parseStrBody (g + 1) acc ('"' :: rest) = _
    rw [parseStrBody_quote, List.append_nil]
  | cons c cs ih =>
    intro f hf acc rest
    obtain ⟨g, rfl⟩ : ∃ g, f = g + 1 := ⟨f - 1, by omega⟩
    show parseStrBody (g + 1) acc
      ((escChar c ++ cs.foldr (fun c acc2 => escChar c ++ acc2) []) ++ '"' :: rest) = _
    rw [List.append_assoc, escChar_parse,
      ih g (by simp only [List.length_cons] at hf; omega)]
    rw [List.reverse_cons, List.append_assoc]
    rfl

/-- `parseStrBody` inverts `escString`, recovering the string and the
input after the closing quote. -/
theorem parseStrBody_escString (s : String) {f : Nat} (hf : s.data.length < f)
    (rest : List Char) :
    parseStrBody f [] (escString s ++ '"' :: rest) = some (s, rest) := by
  unfold escString
  rw [parseStrBody_escaped s.data f hf]
  cases s with
  | mk l => rfl

theorem escChar_length_pos (c : Char) : 1 ≤ (escChar c).length := by
  unfold escChar uEscape
  split_ifs <;> simp [hex4]

/-- Escaping never shrinks a string. -/
theorem escString_length (cs : List Char) :
    cs.length ≤ (cs.foldr (fun c acc2 => escChar c ++ acc2) []).length := by
  induction cs with
  | nil => simp
  | cons c cs ih =>
    simp only [List.foldr_cons, List.length_cons, List.length_append]
    have := escChar_length_pos c
    omega

/-! ### Shape of serialized documents -/

theorem dumps_null : dumps .null = "null" := by simp [dumps]

theorem dumps_true : dumps (.bool true) = "true" := by simp [dumps]

theorem dumps_false : dumps (.bool false) = "false" := by simp [dumps]

theorem dumps_num (i : Int) : dumps (.num i) = dumpsInt i := by simp [dumps]

theorem dumps_str (s : String) : dumps (.str s) = dumpsStr s := by simp [dumps]

theorem dumps_arr_nil : dumps (.arr []) = "[]" := by simp [dumps]

theorem dumps_arr_cons (x : Json) (xs : List Json) :
    dumps (.arr (x :: xs)) = "[" ++ dumpsArr x xs ++ "]" := by simp [dumps]

theorem dumps_obj_nil : dumps (.obj []) = "\x7b\x7d" := by simp [dumps]

theorem dumps_obj_cons (kv : String × Json) (ms : List (String × Json)) :
    dumps (.obj (kv :: ms)) = "\x7b" ++ dumpsObj kv ms ++ "\x7d" := by simp [dumps]

theorem dumpsArr_nil (x : Json) : dumpsArr x [] = dumps x := by simp [dumpsArr]

theorem dumpsArr_cons (x y : Json) (ys : List Json) :
    dumpsArr x (y :: ys) = dumps x ++ ", " ++ dumpsArr y ys := by simp [dumpsArr]

theorem dumpsObj_nil (k : String) (v : Json) :
    dumpsObj (k, v) [] = dumpsStr k ++ ": " ++ dumps v := by simp [dumpsObj]

theorem dumpsObj_cons (k : String) (v : Json) (kv : String × Json)
    (ms : List (String × Json)) :
    dumpsObj (k, v) (kv :: ms) = dumpsStr k ++ ": " ++ dumps v ++ ", " ++ dumpsObj kv ms := by
  simp [dumpsObj]

theorem dumpsStr_data (s : String) :
    (dumpsStr s).data = '"' :: (escString s ++ ['"']) := rfl

theorem isDigit_toNat {c : Char} (h : c.isDigit = true) : 48 ≤ c.toNat ∧ c.toNat ≤ 57 := by
  simp only [Char.isDigit, decide_eq_true_eq, Bool.and_eq_true] at h
  exact ⟨h.1, h.2⟩

theorem natDec_cons (n : Nat) : ∃ d ds, natDec n = d :: ds := by
  cases h : natDec n with
  | nil => exact absurd h (natDigits_ne_nil (by omega))
  | cons d ds => exact ⟨d, ds, rfl⟩

theorem natDec_digits (n : Nat) : ∀ c ∈ natDec n, c.isDigit = true :=
  natDigits_digits (n + 1) n

/-- First character of a serialized document; it is never `]`, `\x7d`
or a separator. -/
theorem dumps_head (j : Json) :
    ∃ c cs, (dumps j).data = c :: cs ∧ ¬ c = ']' ∧ ¬ c = '\x7d' := by
  cases j with
  | null => exact ⟨'n', _, by rw [dumps_null], by decide, by decide⟩
  | bool b =>
    cases b with
    | true => exact ⟨'t', _, by rw [dumps_true], by decide, by decide⟩
    | false => exact ⟨'f', _, by rw [dumps_false], by decide, by decide⟩
  | num i =>
    rw [dumps_num]
    by_cases hi : i < 0
    · refine ⟨'-', natDec i.natAbs, ?_, by decide, by decide⟩
      simp [dumpsInt, hi]
    · obtain ⟨d, ds, hds⟩ := natDec_cons i.natAbs
      have hd : d.isDigit = true := natDec_digits i.natAbs d (hds ▸ List.mem_cons_self _ _)
      have hdb := isDigit_toNat hd
      refine ⟨d, ds, ?_, ?_, ?_⟩
      · simp [dumpsInt, hi, hds]
      · intro he; rw [he] at hdb; exact absurd hdb (by decide)
      · intro he; rw [he] at hdb; exact absurd hdb (by decide)
  | str s => exact ⟨'"', _, by rw [dumps_str, dumpsStr_data], by decide, by decide⟩
  | arr xs =>
    cases xs with
    | nil => exact ⟨'[', [']'], by rw [dumps_arr_nil], by decide, by decide⟩
    | cons x xs =>
      refine ⟨'[', (dumpsArr x xs).data ++ [']'], ?_, by decide, by decide⟩
      rw [dumps_arr_cons, strData_append, strData_append]
      rfl
  | obj ms =>
    cases ms with
    | nil => exact ⟨'\x7b', ['\x7d'], by rw [dumps_obj_nil], by decide, by decide⟩
    | cons kv ms =>
      refine ⟨'\x7b', (dumpsObj kv ms).data ++ ['\x7d'], ?_, by decide, by decide⟩
      rw [dumps_obj_cons, strData_append, strData_append]
      rfl

/-! ### `parseVal` on serialized scalars -/

theorem parseVal_null (f : Nat) (rest : List Char) :
    parseVal (f + 1) ((dumps .null).data ++ rest) = some (.null, rest) := by
  rw [dumps_null]
  show parseVal (f + 1) ('n' :: ('u' :: 'l' :: 'l' :: rest)) = _
  simp [parseVal, expectLit]

theorem parseVal_true (f : Nat) (rest : List Char) :
    parseVal (f + 1) ((dumps (.bool true)).data ++ rest) = some (.bool true, rest) := by
  rw [dumps_true]
  show parseVal (f + 1) ('t' :: ('r' :: 'u' :: 'e' :: rest)) = _
  simp [parseVal, expectLit]

theorem parseVal_false (f : Nat) (rest : List Char) :
    parseVal (f + 1) ((dumps (.bool false)).data ++ rest) = some (.bool false, rest) := by
  rw [dumps_false]
  show parseVal (f + 1) ('f' :: ('a' :: 'l' :: 's' :: 'e' :: rest)) = _
  simp [parseVal, expectLit]

theorem parseDigitsAux_natDec_cons {n : Nat} {d : Char} {ds rest : List Char}
    (hds : natDec n = d :: ds) (hr : notDigitHead rest) :
    parseDigitsAux (ds ++ rest) (d.toNat - 48) = (n, rest) := by
  have hd : d.isDigit = true := natDec_digits n d (hds ▸ List.mem_cons_self _ _)
  have hrun : parseDigitsAux ((d :: ds) ++ rest) 0 = (n, rest) := by
    rw [← hds]; exact parseDigitsAux_natDec hr
  rw [show (d :: ds) ++ rest = d :: (ds ++ rest) from rfl] at hrun
  unfold parseDigitsAux at hrun
  rw [hd] at hrun
  simpa using hrun

theorem parseVal_num (i : Int) (f : Nat) {rest : List Char} (hr : notDigitHead rest) :
    parseVal (f + 1) ((dumpsInt i).data ++ rest) = some (.num i, rest) := by
  by_cases hi : i < 0
  · have hneg : dumpsInt i = ⟨'-' :: natDec i.natAbs⟩ := by simp [dumpsInt, hi]
    obtain ⟨d, ds, hds⟩ := natDec_cons i.natAbs
    have hd : d.isDigit = true := natDec_digits i.natAbs d (hds ▸ List.mem_cons_self _ _)
    rw [hneg, hds]
    show parseVal (f + 1) ('-' :: (d :: (ds ++ rest))) = _
    simp only [parseVal]
    norm_num
    rw [hd]
    simp only [if_true]
    rw [parseDigitsAux_natDec_cons hds hr]
    show some (Json.num (-((i.natAbs : Nat) : Int)), rest) = some (Json.num i, rest)
    rw [show -((i.natAbs : Nat) : Int) = i from by omega]
  · have hpos : dumpsInt i = ⟨natDec i.natAbs⟩ := by simp [dumpsInt, hi]
    obtain ⟨d, ds, hds⟩ := natDec_cons i.natAbs
    have hd : d.isDigit = true := natDec_digits i.natAbs d (hds ▸ List.mem_cons_self _ _)
    have hdb := isDigit_toNat hd
    rw [hpos, hds]
    show parseVal (f + 1) (d :: (ds ++ rest)) = _
    simp only [parseVal]
    rw [if_neg (fun he => absurd (he ▸ hdb) (by decide)),
      if_neg (fun he => absurd (he ▸ hdb) (by decide)),
      if_neg (fun he => absurd (he ▸ hdb) (by decide)),
      if_neg (fun he => absurd (he ▸ hdb) (by decide)),
      if_neg (fun he => absurd (he ▸ hdb) (by decide)),
      if_neg (fun he => absurd (he ▸ hdb) (by decide)),
      if_neg (fun he => absurd (he ▸ hdb) (by decide)),
      if_pos hd]
    rw [parseDigitsAux_natDec_cons hds hr]
    show some (Json.num ((i.natAbs : Nat) : Int), rest) = some (Json.num i, rest)
    rw [show ((i.natAbs : Nat) : Int) = i from by omega]

theorem parseVal_str (s : String) (f : Nat) (rest : List Char) :
    parseVal (f + 1) ((dumpsStr s).data ++ rest) = some (.str s, rest) := by
  rw [dumpsStr_data]
  show parseVal (f + 1) ('"' :: ((escString s ++ ['"']) ++ rest)) = _
  rw [List.append_assoc, show (['"'] : List Char) ++ rest = '"' :: rest from rfl]
  simp only [parseVal]
  rw [parseStrBody_escString s (by
    have h1 := escString_length s.data
    unfold escString
    simp only [List.length_append, List.length_cons]
    omega) rest]
  simp

theorem jsize_pos (j : Json) : 1 ≤ jsize j := by
  cases j <;> simp [jsize]

theorem notDigitHead_cons {c : Char} (h : c.isDigit = false) (r : List Char) :
    notDigitHead (c :: r) := h

/-- The parser inverts the serializer: with fuel at least the
document's `jsize`, `parseVal` consumes exactly the serialized
document and returns it; likewise `parseItems` and `parseMembers` for
array and object member lists up to their closing bracket. -/
theorem parse_round : ∀ f : Nat,
    (∀ (j : Json) (rest : List Char), jsize j ≤ f → notDigitHead rest →
      parseVal f ((dumps j).data ++ rest) = some (j, rest)) ∧
    (∀ (x : Json) (xs : List Json) (rest : List Char), jlistSize (x :: xs) ≤ f →
      parseItems f ((dumpsArr x xs).data ++ ']' :: rest) = some (x :: xs, rest)) ∧
    (∀ (k : String) (v : Json) (ms : List (String × Json)) (rest : List Char),
      jmemSize ((k, v) :: ms) ≤ f →
      parseMembers f ((dumpsObj (k, v) ms).data ++ '\x7d' :: rest)
        = some ((k, v) :: ms, rest)) := by
  intro f
  induction f using Nat.strong_induction_on with
  | _ f ih =>
    refine ⟨?_, ?_, ?_⟩
    · intro j rest hsz hr
      obtain ⟨g, rfl⟩ : ∃ g, f = g + 1 := ⟨f - 1, by have := jsize_pos j; omega⟩
      cases j with
      | null => exact parseVal_null g rest
      | bool b =>
        cases b with
        | true => exact parseVal_true g rest
        | false => exact parseVal_false g rest
      | num i =>
        rw [show (dumps (.num i)).data = (dumpsInt i).data from by rw [dumps_num]]
        exact parseVal_num i g hr
      | str s =>
        rw [show (dumps (.str s)).data = (dumpsStr s).data from by rw [dumps_str]]
        exact parseVal_str s g rest
      | arr xs =>
        cases xs with
        | nil =>
          have hg : 1 ≤ g := by
            simp [jsize, jlistSize] at hsz
            omega
          obtain ⟨h, rfl⟩ : ∃ h, g = h + 1 := ⟨g - 1, by omega⟩
          rw [show (dumps (.arr [])).data = ['[', ']'] from by rw [dumps_arr_nil]]
          show parseVal (h + 1 + 1) ('[' :: (']' :: rest)) = _
          simp only [parseVal]
          rw [show parseItems (h + 1) (']' :: rest) = some ([], rest) from by
            simp [parseItems]]
          simp
        | cons x xs =>
          have hdata : (dumps (.arr (x :: xs))).data ++ rest
              = '[' :: ((dumpsArr x xs).data ++ (']' :: rest)) := by
            rw [dumps_arr_cons, strData_append, strData_append]
            simp
          rw [hdata]
          simp only [parseVal]
          rw [(ih g (by omega)).2.1 x xs rest (by
            simp only [jsize] at hsz
            omega)]
          simp
      | obj ms =>
        cases ms with
        | nil =>
          have hg : 1 ≤ g := by
            simp [jsize, jmemSize] at hsz
            omega
          obtain ⟨h, rfl⟩ : ∃ h, g = h + 1 := ⟨g - 1, by omega⟩
          rw [show (dumps (.obj [])).data = ['\x7b', '\x7d'] from by rw [dumps_obj_nil]]
          show parseVal (h + 1 + 1) ('\x7b' :: ('\x7d' :: rest)) = _
          simp only [parseVal]
          rw [show parseMembers (h + 1) ('\x7d' :: rest) = some ([], rest) from by
            simp [parseMembers]]
          simp
        | cons kv ms =>
          obtain ⟨k, v⟩ := kv
          have hdata : (dumps (.obj ((k, v) :: ms))).data ++ rest
              = '\x7b' :: ((dumpsObj (k, v) ms).data ++ ('\x7d' :: rest)) := by
            rw [dumps_obj_cons, strData_append, strData_append]
            simp
          rw [hdata]
          simp only [parseVal]
          rw [(ih g (by omega)).2.2 k v ms rest (by
            simp only [jsize] at hsz
            omega)]
          simp
    · intro x xs rest hsz
      have hf1 : 1 ≤ f := by
        simp [jlistSize] at hsz
        omega
      obtain ⟨g, rfl⟩ : ∃ g, f = g + 1 := ⟨f - 1, by omega⟩
      obtain ⟨c, cs, hc, hcne, _⟩ := dumps_head x
      have hjx : jsize x ≤ g := by
        simp [jlistSize] at hsz
        omega
      cases xs with
      | nil =>
        rw [show (dumpsArr x []).data = (dumps x).data from by rw [dumpsArr_nil]]
        simp only [parseItems]
        rw [if_neg (by rw [hc]; simp [hcne])]
        rw [(ih g (by omega)).1 x (']' :: rest) hjx (notDigitHead_cons (by decide) _)]
        simp
      | cons y ys =>
        have hdata : (dumpsArr x (y :: ys)).data ++ ']' :: rest
            = (dumps x).data ++ (',' :: ' ' :: ((dumpsArr y ys).data ++ ']' :: rest)) := by
          rw [dumpsArr_cons, strData_append, strData_append]
          simp
        rw [hdata]
        simp only [parseItems]
        rw [if_neg (by rw [hc]; simp [hcne])]
        rw [(ih g (by omega)).1 x _ hjx (notDigitHead_cons (by decide) _)]
        have hexp : expectLit [' '] (' ' :: ((dumpsArr y ys).data ++ ']' :: rest))
            = some ((dumpsArr y ys).data ++ ']' :: rest) := by simp [expectLit]
        have hrec : parseItems g ((dumpsArr y ys).data ++ ']' :: rest)
            = some (y :: ys, rest) := by
          refine (ih g (by omega)).2.1 y ys rest ?_
          have hp := jsize_pos x
          simp [jlistSize] at hsz ⊢
          omega
        simp [hexp, hrec]
    · intro k v ms rest hsz
      have hf1 : 1 ≤ f := by
        simp [jmemSize] at hsz
        omega
      obtain ⟨g, rfl⟩ : ∃ g, f = g + 1 := ⟨f - 1, by omega⟩
      have hjv : jsize v ≤ g := by
        simp [jmemSize] at hsz
        omega
      cases ms with
      | nil =>
        have hdata : (dumpsObj (k, v) []).data ++ '\x7d' :: rest
            = '"' :: (escString k ++ '"' ::
                (':' :: ' ' :: ((dumps v).data ++ '\x7d' :: rest))) := by
          rw [dumpsObj_nil, strData_append, strData_append, dumpsStr_data]
          simp
        rw [hdata]
        simp only [parseMembers]
        rw [parseStrBody_escString k (by
          have h1 := escString_length k.data
          unfold escString
          simp only [List.length_append, List.length_cons]
          omega) _]
        have hexp : expectLit [':', ' '] (':' :: ' ' :: ((dumps v).data ++ '\x7d' :: rest))
            = some ((dumps v).data ++ '\x7d' :: rest) := by simp [expectLit]
        have hval : parseVal g ((dumps v).data ++ '\x7d' :: rest)
            = some (v, '\x7d' :: rest) :=
          (ih g (by omega)).1 v _ hjv (notDigitHead_cons (by decide) _)
        simp [hexp, hval]
      | cons kv2 ms2 =>
        obtain ⟨k2, v2⟩ := kv2
        have hdata : (dumpsObj (k, v) ((k2, v2) :: ms2)).data ++ '\x7d' :: rest
            = '"' :: (escString k ++ '"' ::
                (':' :: ' ' :: ((dumps v).data ++ ',' :: ' ' ::
                  ((dumpsObj (k2, v2) ms2).data ++ '\x7d' :: rest)))) := by
          rw [dumpsObj_cons, strData_append, strData_append, strData_append,
            strData_append, dumpsStr_data]
          simp
        rw [hdata]
        simp only [parseMembers]
        rw [parseStrBody_escString k (by
          have h1 := escString_length k.data
          unfold escString
          simp only [List.length_append, List.length_cons]
          omega) _]
        have hexp : expectLit [':', ' '] (':' :: ' ' :: ((dumps v).data ++ ',' :: ' ' ::
            ((dumpsObj (k2, v2) ms2).data ++ '\x7d' :: rest)))
            = some ((dumps v).data ++ ',' :: ' ' ::
              ((dumpsObj (k2, v2) ms2).data ++ '\x7d' :: rest)) := by simp [expectLit]
        have hval : parseVal g ((dumps v).data ++ ',' :: ' ' ::
            ((dumpsObj (k2, v2) ms2).data ++ '\x7d' :: rest))
            = some (v, ',' :: ' ' :: ((dumpsObj (k2, v2) ms2).data ++ '\x7d' :: rest)) :=
          (ih g (by omega)).1 v _ hjv (notDigitHead_cons (by decide) _)
        have hexp2 : expectLit [' '] (' ' :: ((dumpsObj (k2, v2) ms2).data ++ '\x7d' :: rest))
            = some ((dumpsObj (k2, v2) ms2).data ++ '\x7d' :: rest) := by simp [expectLit]
        have hrec : parseMembers g ((dumpsObj (k2, v2) ms2).data ++ '\x7d' :: rest)
            = some ((k2, v2) :: ms2, rest) := by
          refine (ih g (by omega)).2.2 k2 v2 ms2 rest ?_
          have hp := jsize_pos v
          simp [jmemSize] at hsz ⊢
          omega
        simp [hexp, hval, hexp2, hrec]

theorem dumps_len_pos (j : Json) : 1 ≤ (dumps j).data.length := by
  obtain ⟨c, cs, hc, _, _⟩ := dumps_head j
  rw [hc]
  simp

mutual

theorem jsize_le (j : Json) : jsize j ≤ (dumps j).data.length := by
  cases j with
  | null => rw [dumps_null]; simp [jsize]
  | bool b =>
    cases b with
    | true => rw [dumps_true]; simp [jsize]
    | false => rw [dumps_false]; simp [jsize]
  | num i =>
    have := dumps_len_pos (.num i)
    simp only [jsize]
    omega
  | str s =>
    have := dumps_len_pos (.str s)
    simp only [jsize]
    omega
  | arr xs =>
    cases xs with
    | nil => rw [dumps_arr_nil]; simp [jsize, jlistSize]
    | cons x xs =>
      have h1 := jlistSize_le x xs
      have h2 : (dumps (.arr (x :: xs))).data.length
          = (dumpsArr x xs).data.length + 2 := by
        rw [dumps_arr_cons, strData_append, strData_append]
        simp
      simp only [jsize]
      omega
  | obj ms =>
    cases ms with
    | nil => rw [dumps_obj_nil]; simp [jsize, jmemSize]
    | cons kv ms =>
      obtain ⟨k, v⟩ := kv
      have h1 := jmemSize_le k v ms
      have h2 : (dumps (.obj ((k, v) :: ms))).data.length
          = (dumpsObj (k, v) ms).data.length + 2 := by
        rw [dumps_obj_cons, strData_append, strData_append]
        simp
      simp only [jsize]
      omega
termination_by sizeOf j
decreasing_by all_goals (simp_wf; try omega)

theorem jlistSize_le (x : Json) (xs : List Json) :
    jlistSize (x :: xs) ≤ (dumpsArr x xs).data.length + 1 := by
  cases xs with
  | nil =>
    have h1 := jsize_le x
    have h2 := dumps_len_pos x
    have h3 : (dumpsArr x []).data.length = (dumps x).data.length := by
      rw [dumpsArr_nil]
    simp only [jlistSize]
    omega
  | cons y ys =>
    have h1 := jsize_le x
    have h2 := jlistSize_le y ys
    have h3 : (dumpsArr x (y :: ys)).data.length
        = (dumps x).data.length + 2 + (dumpsArr y ys).data.length := by
      rw [dumpsArr_cons, strData_append, strData_append]
      simp
      omega
    simp only [jlistSize] at h2 ⊢
    omega
termination_by sizeOf x + sizeOf xs
decreasing_by all_goals (simp_wf; try omega)

theorem jmemSize_le (k : String) (v : Json) (ms : List (String × Json)) :
    jmemSize ((k, v) :: ms) ≤ (dumpsObj (k, v) ms).data.length + 1 := by
  cases ms with
  | nil =>
    have h1 := jsize_le v
    have h2 := dumps_len_pos v
    have h3 : (dumpsObj (k, v) []).data.length
        = (dumpsStr k).data.length + 2 + (dumps v).data.length := by
      rw [dumpsObj_nil, strData_append, strData_append]
      simp
      omega
    simp only [jmemSize]
    omega
  | cons kv2 ms2 =>
    obtain ⟨k2, v2⟩ := kv2
    have h1 := jsize_le v
    have h2 := jmemSize_le k2 v2 ms2
    have h3 : (dumpsObj (k, v) ((k2, v2) :: ms2)).data.length
        = (dumpsStr k).data.length + 2 + (dumps v).data.length + 2
          + (dumpsObj (k2, v2) ms2).data.length := by
      rw [dumpsObj_cons, strData_append, strData_append, strData_append, strData_append]
      simp
      omega
    simp only [jmemSize] at h2 ⊢
    omega
termination_by sizeOf v + sizeOf ms
decreasing_by all_goals (simp_wf; try omega)

end

/-- `json.loads` inverts `json.dumps`: deserializing a stored blob
recovers the document. -/
theorem dumps_loads (j : Json) : loads (dumps j) = some j := by
  unfold loads
  have h1 : jsize j ≤ (dumps j).data.length + 1 := le_trans (jsize_le j) (by omega)
  have h2 := (parse_round ((dumps j).data.length + 1)).1 j [] h1 trivial
  rw [List.append_nil] at h2
  rw [h2]

/-- Claim C7: append then query round-trips the payload — the
inserted row is returned by `get_results_since` for any earlier
timestamp; its stored blob is the serialized (string-wrapped when the
payload is a plain string) payload; deserializing the blob yields a
value equal to the original payload (unchanged for structured
documents, `\x7b"output": s\x7d` for a plain string `s`). -/
theorem claim_C7 (db : List Record) (p : Json) (tags : Option (List String))
    (jt : Option String) (argv : String) (now since : ℚ) (h : since < now) :
    mkRecord db p tags jt argv now ∈
        get_results_since since (applyOp (.opLog p tags jt argv now) db) ∧
    (mkRecord db p tags jt argv now).results = dumps (wrapPayload p) ∧
    loads (mkRecord db p tags jt argv now).results = some (wrapPayload p) ∧
    ((∀ s : String, ¬ p = .str s) → wrapPayload p = p) ∧
    (∀ s : String, p = .str s → wrapPayload p = .obj [("output", .str s)]) := by
  refine ⟨?_, rfl, ?_, ?_, ?_⟩
  · simp only [applyOp, log, get_results_since, List.mem_filter, List.mem_append,
      List.mem_singleton, decide_eq_true_eq]
    exact ⟨Or.inr trivial, h⟩
  · show loads (dumps (wrapPayload p)) = _
    exact dumps_loads _
  · intro hns
    cases p with
    | str s => exact absurd rfl (hns s)
    | null => rfl
    | bool b => rfl
    | num i => rfl
    | arr xs => rfl
    | obj ms => rfl
  · intro s hp
    rw [hp]
    rfl

/-- Witness for C7: logging the plain string `"hello"` at time 1 and
querying since 0. -/
theorem claim_C7_witness :
    (0 : ℚ) < 1 ∧
    (mkRecord [] (.str "hello") none none "" 1 ∈
        get_results_since 0 (applyOp (.opLog (.str "hello") none none "" 1) []) ∧
      (mkRecord [] (.str "hello") none none "" 1).results
        = dumps (wrapPayload (.str "hello")) ∧
      loads (mkRecord [] (.str "hello") none none "" 1).results
        = some (wrapPayload (.str "hello")) ∧
      ((∀ s : String, ¬ (Json.str "hello") = .str s)
        → wrapPayload (.str "hello") = .str "hello") ∧
      (∀ s : String, (Json.str "hello") = .str s →
        wrapPayload (.str "hello") = .obj [("output", .str s)])) :=
  ⟨by norm_num, claim_C7 [] (.str "hello") none none "" 1 0 (by norm_num)⟩

end Wallaby
